import Mathlib

/-
  Verification development for the PGMORL implementation
  (morl_baselines/multi_policy/pgmorl/pgmorl.py).

  The Python source is shallowly embedded below.  Floating point values are
  modelled by rationals where every operation used is field arithmetic, and by
  real numbers where the source uses transcendental functions (sqrt, arccos,
  pi).  Numpy arrays of evaluations/weights are two-component tuples (the
  algorithm is written for two objectives: `generate_weights` hard-codes the
  2-d simplex and `PerformanceBuffer.add` indexes `centered_eval[1]`).
  Python lists are Lean lists; `list.append` is `++ [x]`; in-place element
  assignment is `List.set`.  External collaborators that the source merely
  calls (scipy's `least_squares`, `hypervolume`, `sparsity`, the MOPPO
  policy-gradient learner, gym environments) are out of scope of the spec and
  appear as opaque parameters of the embedding, never as stubs of in-scope
  logic.
-/

/-! ## WeightSampler: `generate_weights` (pgmorl.py lines 166-173) -/

/-- Python `int(...)` conversion on a rational value: truncation toward zero. -/
def pyInt (q : ℚ) : ℤ :=
  if 0 ≤ q then ⌊q⌋ else -⌊-q⌋

/-- Embeds `np.linspace((0.0, 1.0), (1.0, 0.0), int(1 / delta_weight) + 1)`:
with `n := int(1 / delta_weight)`, the `n + 1` points are
`(j / n, 1 - j / n)` for `j = 0, ..., n` (for `n = 0`, numpy returns just the
start point `(0, 1)`, which the formula also yields since `j / 0 = 0`). -/
def generate_weights (delta_weight : ℚ) : List (ℚ × ℚ) :=
  (List.range ((pyInt (1 / delta_weight)).toNat + 1)).map
    (fun (j : ℕ) => ((j : ℚ) / ((pyInt (1 / delta_weight)).toNat : ℚ),
                     1 - (j : ℚ) / ((pyInt (1 / delta_weight)).toNat : ℚ)))

/-! ## PerformancePredictor: state and `add` (pgmorl.py lines 20-49) -/

/-- State of `PerformancePredictor.__init__`: the three parallel history
lists and the prediction-model hyperparameters. -/
structure PerformancePredictor (E W : Type) where
  previous_performance : List E
  next_performance : List E
  used_weight : List W
  neighborhood_threshold : ℚ
  sigma : ℚ
  A_bound_min : ℚ
  A_bound_max : ℚ
  f_scale : ℚ

/-- Fresh predictor as built by `PerformancePredictor.__init__`. -/
def PerformancePredictor.init (E W : Type) (thr sig amin amax fs : ℚ) :
    PerformancePredictor E W :=
  ⟨[], [], [], thr, sig, amin, amax, fs⟩

/-- `PerformancePredictor.add`: appends one entry to each history list and
touches nothing else. -/
def PerformancePredictor.add {E W : Type} (p : PerformancePredictor E W)
    (weight : W) (eval_before_pg eval_after_pg : E) : PerformancePredictor E W :=
  ⟨p.previous_performance ++ [eval_before_pg],
   p.next_performance ++ [eval_after_pg],
   p.used_weight ++ [weight],
   p.neighborhood_threshold, p.sigma, p.A_bound_min, p.A_bound_max, p.f_scale⟩

/-- Folds a sequence of `add` calls (weight, eval_before_pg, eval_after_pg)
over a predictor. -/
def applyRecords {E W : Type} (p : PerformancePredictor E W)
    (ops : List (W × E × E)) : PerformancePredictor E W :=
  ops.foldl (fun s t => s.add t.1 t.2.1 t.2.2) p

/-! ## PerformancePredictor: the neighbor-expansion loop of
`predict_next_evaluation` (pgmorl.py lines 129-148).

State of the while loop: the doubled `current_sigma` and
`current_neighb_threshold`, and the accumulated parallel lists
`neighbor_weights`, `neighbor_deltas`, `neighbor_next_perf`.
Evaluations and weights are two-component rational tuples. -/

/-- Accumulator of the neighbor search: `(neighbor_weights, neighbor_deltas,
neighbor_next_perf)`. -/
def NeighborAcc : Type :=
  List (ℚ × ℚ) × List (ℚ × ℚ) × List (ℚ × ℚ)

/-- Body of the inner `for` loop over `zip(previous_performance,
next_performance, used_weight)`: a sample `(prev, next, w)` is appended when
`np.all(np.abs(prev - policy_eval) < thr * np.abs(policy_eval))` holds
componentwise and its `next` is not already among the collected
`neighbor_next_perf`. -/
def neighborStep (policy_eval : ℚ × ℚ) (thr : ℚ) (acc : NeighborAcc)
    (s : (ℚ × ℚ) × (ℚ × ℚ) × (ℚ × ℚ)) : NeighborAcc :=
  if (|s.1.1 - policy_eval.1| < thr * |policy_eval.1| ∧
      |s.1.2 - policy_eval.2| < thr * |policy_eval.2|) ∧ s.2.1 ∉ acc.2.2 then
    (acc.1 ++ [s.2.2],
     acc.2.1 ++ [(s.2.1.1 - s.1.1, s.2.1.2 - s.1.2)],
     acc.2.2 ++ [s.2.1])
  else acc

/-- One full scan of the history (one iteration of the `while` body after the
threshold has been doubled). -/
def neighborScan (p : PerformancePredictor (ℚ × ℚ) (ℚ × ℚ)) (policy_eval : ℚ × ℚ)
    (thr : ℚ) (acc : NeighborAcc) : NeighborAcc :=
  (p.previous_performance.zip (p.next_performance.zip p.used_weight)).foldl
    (neighborStep policy_eval thr) acc

/-- State of the neighbor-expansion loop after `k` iterations of the `while`
body: `(current_sigma, current_neighb_threshold, accumulator)`.  At `k = 0`
the loop has not run: sigma and threshold hold their halved initial values
and the accumulator is empty.  Each iteration doubles both and rescans the
whole history.  The `while` condition is `len(neighbor_weights) < 4`, so
`predict_next_evaluation` returns only if some `k` makes the first
accumulator list reach length 4. -/
def neighborsAfter (p : PerformancePredictor (ℚ × ℚ) (ℚ × ℚ))
    (policy_eval : ℚ × ℚ) : ℕ → ℚ × ℚ × NeighborAcc
  | 0 => (p.sigma / 2, p.neighborhood_threshold / 2, ([], [], []))
  | k + 1 =>
    let st := neighborsAfter p policy_eval k
    (st.1 * 2, st.2.1 * 2, neighborScan p policy_eval (st.2.1 * 2) st.2.2)

/-! ## PerformanceBuffer (pgmorl.py lines 176-221).

Evaluations are two-component real tuples.  `bins` and `bins_evals` are the
two parallel lists of bins kept by the source.  `np.linalg.norm` is the
Euclidean norm, `np.clip(x, 0.0, inf)` is `max x 0`, `np.clip(x, -1, 1)` is
`min 1 (max (-1) x)`, `np.arccos` is `Real.arccos`, and
`int(theta // dtheta)` is the integer floor (theta is nonnegative). -/

/-- Euclidean norm of a two-component evaluation (`np.linalg.norm`). -/
noncomputable def rnorm (v : ℝ × ℝ) : ℝ :=
  Real.sqrt (v.1 ^ 2 + v.2 ^ 2)

/-- The local `center_eval` of `PerformanceBuffer.add`:
`np.clip(eval + self.origin, 0.0, float("inf"))` componentwise. -/
def centerEval (origin : ℝ × ℝ) (e : ℝ × ℝ) : ℝ × ℝ :=
  (max (e.1 + origin.1) 0, max (e.2 + origin.2) 0)

/-- Bin index computed by `PerformanceBuffer.add`:
`theta = arccos(clip(centered[1] / (norm + 1e-3), -1, 1))` and
`buffer_id = int(theta // (pi / 2 / num_bins))`. -/
noncomputable def bufferId (origin : ℝ × ℝ) (num_bins : ℕ) (e : ℝ × ℝ) : ℤ :=
  let c := centerEval origin e
  ⌊Real.arccos (min 1 (max (-1) (c.2 / (rnorm c + 1 / 1000)))) /
      (Real.pi / 2 / (num_bins : ℝ))⌋

/-- First index `k < fuel₀` (scanning `k = start, start+1, ...`) at which the
boolean predicate holds; models a `for ... if ...: ...; break` search. -/
def firstSat (p : ℕ → Bool) : ℕ → ℕ → Option ℕ
  | 0, _ => none
  | f + 1, k => if p k then some k else firstSat p f (k + 1)

/-- The replacement scan of the full-bin branch of `PerformanceBuffer.add`:
`for i in range(len(self.bins[buffer_id]))`, take the first `i` whose stored
centered evaluation has Euclidean norm smaller than the candidate's. -/
noncomputable def replaceIndex (origin : ℝ × ℝ) (evs : List (ℝ × ℝ))
    (binLen : ℕ) (candNorm : ℝ) : Option ℕ :=
  firstSat (fun k => decide (rnorm (centerEval origin (evs.getD k (0, 0))) < candNorm))
    binLen 0

/-- State of a `PerformanceBuffer`: `origin` is `-ref_point`; `bins` holds the
individuals and `bins_evals` the matching raw evaluations. -/
structure PerformanceBuffer (α : Type) where
  num_bins : ℕ
  max_size : ℕ
  origin : ℝ × ℝ
  bins : List (List α)
  bins_evals : List (List (ℝ × ℝ))

/-- `PerformanceBuffer.__init__`: `num_bins` empty bins in both parallel
lists. -/
def PerformanceBuffer.init (α : Type) (num_bins max_size : ℕ) (ref_point : ℝ × ℝ) :
    PerformanceBuffer α :=
  ⟨num_bins, max_size, (-ref_point.1, -ref_point.2),
   List.replicate num_bins [], List.replicate num_bins []⟩

/-- `PerformanceBuffer.add` (pgmorl.py lines 199-221).  Out-of-range bin
index: return with no mutation.  Spare capacity: append (a copy of) the
candidate and its evaluation.  Full bin: replace the first stored entry whose
centered-evaluation norm is smaller than the candidate's, if any. -/
noncomputable def PerformanceBuffer.add {α : Type} (pb : PerformanceBuffer α)
    (candidate : α) (evaluation : ℝ × ℝ) : PerformanceBuffer α :=
  let bid := bufferId pb.origin pb.num_bins evaluation
  if bid < 0 ∨ (pb.num_bins : ℤ) ≤ bid then pb
  else
    let i := bid.toNat
    if (pb.bins.getD i []).length < pb.max_size then
      ⟨pb.num_bins, pb.max_size, pb.origin,
       pb.bins.set i (pb.bins.getD i [] ++ [candidate]),
       pb.bins_evals.set i (pb.bins_evals.getD i [] ++ [evaluation])⟩
    else
      match replaceIndex pb.origin (pb.bins_evals.getD i [])
          (pb.bins.getD i []).length (rnorm (centerEval pb.origin evaluation)) with
      | some j =>
        ⟨pb.num_bins, pb.max_size, pb.origin,
         pb.bins.set i ((pb.bins.getD i []).set j candidate),
         pb.bins_evals.set i ((pb.bins_evals.getD i []).set j evaluation)⟩
      | none => pb

/-- Folds a sequence of `add` calls over a buffer. -/
noncomputable def applyAdds {α : Type} (pb : PerformanceBuffer α)
    (ops : List (α × (ℝ × ℝ))) : PerformanceBuffer α :=
  ops.foldl (fun b o => b.add o.1 o.2) pb

/-! ## Task/weight selection (`PGMORL.__task_weight_selection`, pgmorl.py
lines 437-507).

`MOPPO` agents are modelled by their fields that the selector reads or
writes: `id`, `global_step`, `weights`, and an opaque policy payload `net`.
The two external quality indicators `hypervolume(ref_point, front)` and
`sparsity(front)` (consumed as pure functions, spec section 1/6) and the
numeric output of `predict_next_evaluation` (whose core is scipy's
`least_squares`) are parameters of the context.  Scores live in an arbitrary
linearly ordered commutative ring, of which the reals are an instance. -/

/-- Model of an `MOPPO` agent: the fields touched by the selector. -/
structure MOAgentM (W P : Type) where
  id : ℕ
  global_step : ℕ
  weights : W
  net : P
deriving DecidableEq

/-- Inputs of one selection generation that stay fixed during it. -/
structure SelCtx (E W P K : Type) where
  pop : List (MOAgentM W P × E)
  cweights : List W
  predict : W → E → E
  hv : List E → K
  sp : List E → K

/-- Mutable state threaded through the per-worker selection loop. -/
structure SelSt (E W P : Type) where
  agents : List (MOAgentM W P)
  selected : List (E × W)
  front : List E
deriving DecidableEq

/-- The running best of the scan over the population: improvement score,
winning candidate, its chosen weight, its prior evaluation, and the predicted
evaluation — `max_improv`, `best_candidate`, `best_eval`,
`best_predicted_eval` in the source. -/
structure BestSel (E W P K : Type) where
  improv : K
  cand : MOAgentM W P
  weight : W
  eval : E
  predicted : E

/-- `np.argmax` / `np.max` accumulator: first index of the maximum wins. -/
def argmaxAux {K : Type} [LinearOrder K] : List K → ℕ → K → ℕ → ℕ × K
  | [], bi, bv, _ => (bi, bv)
  | x :: xs, bi, bv, i =>
    if bv < x then argmaxAux xs i x (i + 1) else argmaxAux xs bi bv (i + 1)

/-- `(np.argmax l, np.max l)` for a nonempty list (first maximum). -/
def npArgmax {K : Type} [LinearOrder K] (l : List K) (dflt : K) : ℕ × K :=
  match l with
  | [] => (0, dflt)
  | m :: ms => argmaxAux ms 0 m 1

/-- The `candidate_tuples` list comprehension: pairs `(eval, w)` for each
candidate weight `w`, pruning pairs already in `selected_tasks`. -/
def candTuples {E W : Type} [DecidableEq E] [DecidableEq W]
    (selected : List (E × W)) (ev : E) (cw : List W) : List (E × W) :=
  (cw.filter (fun w => decide ((ev, w) ∉ selected))).map (fun w => (ev, w))

/-- The scan over `zip(population, population_eval)` inside one worker's
selection.  Returns `none` when the source raises: `candidate_tuples` empty
for some candidate makes the `zip(*...)` unpacking fail.  Otherwise returns
the final `best_*` accumulator (`none` if the population was empty, in which
case the source would fail on `tuple(None)`). -/
def scanPop {E W P K : Type} [DecidableEq E] [DecidableEq W] [LinearOrderedCommRing K]
    (ctx : SelCtx E W P K) (front : List E) (selected : List (E × W)) :
    List (MOAgentM W P × E) → Option (BestSel E W P K) →
      Option (Option (BestSel E W P K))
  | [], best => some best
  | ce :: rest, best =>
    match candTuples selected ce.2 ctx.cweights with
    | [] => none
    | t :: ts =>
      let preds := (t :: ts).map (fun q => ctx.predict q.2 q.1)
      let metrics := preds.map
        (fun pe => ctx.hv (front ++ [pe]) - ctx.sp (front ++ [pe]))
      let jm := npArgmax metrics 0
      let chosen := (t :: ts).getD jm.1 t
      let chosenPred := preds.getD jm.1 (ctx.predict t.2 t.1)
      let best' : Option (BestSel E W P K) :=
        match best with
        | none => some ⟨jm.2, ce.1, chosen.2, ce.2, chosenPred⟩
        | some b =>
          if b.improv < jm.2 then some ⟨jm.2, ce.1, chosen.2, ce.2, chosenPred⟩
          else some b
      scanPop ctx front selected rest best'

/-- One worker's slot `i` of the selection loop: find the best
(candidate, weight) pair, record it in `selected_tasks`, append its predicted
evaluation to the speculative front, and install at slot `i` a copy of the
winning individual with the slot's own `global_step`, identity `i`, and the
winning weight. -/
def stepWorker {E W P K : Type} [DecidableEq E] [DecidableEq W] [LinearOrderedCommRing K]
    (ctx : SelCtx E W P K) (i : ℕ) (s : SelSt E W P) : Option (SelSt E W P) :=
  match scanPop ctx s.front s.selected ctx.pop none with
  | some (some b) =>
    some ⟨s.agents.set i ⟨i, (s.agents.getD i b.cand).global_step, b.weight, b.cand.net⟩,
          s.selected ++ [(b.eval, b.weight)],
          s.front ++ [b.predicted]⟩
  | _ => none

/-- State after the first `k` workers of the selection loop
(`for i in range(len(self.agents))`) have been processed. -/
def selGo {E W P K : Type} [DecidableEq E] [DecidableEq W] [LinearOrderedCommRing K]
    (ctx : SelCtx E W P K) (s0 : SelSt E W P) : ℕ → Option (SelSt E W P)
  | 0 => some s0
  | k + 1 => (selGo ctx s0 k).bind (stepWorker ctx k)

/-- Entry point of `__task_weight_selection`: the speculative front starts as
a copy of the Pareto archive's evaluations, `selected_tasks` starts empty,
and one slot per agent is processed. -/
def taskWeightSelection {E W P K : Type} [DecidableEq E] [DecidableEq W]
    [LinearOrderedCommRing K] (ctx : SelCtx E W P K)
    (agents : List (MOAgentM W P)) (front0 : List E) : Option (SelSt E W P) :=
  selGo ctx ⟨agents, [], front0⟩ agents.length

/-! ## Scheduler loop (`PGMORL.train`, pgmorl.py lines 509-546, and
`max_iterations` from `__init__` line 295). -/

/-- `self.max_iterations = self.limit_env_steps // self.steps_per_iteration
// self.num_envs` (all nonnegative ints, `//` is floor division). -/
def maxIterations (limit_env_steps steps_per_iteration num_envs : ℕ) : ℕ :=
  limit_env_steps / steps_per_iteration / num_envs

/-- `remaining_iterations = max(self.max_iterations - self.warmup_iterations,
self.evolutionary_iterations)` (Python int subtraction can go negative). -/
def remainingIters (max_iterations warmup_iterations evolutionary_iterations : ℕ) : ℤ :=
  max ((max_iterations : ℤ) - (warmup_iterations : ℤ)) (evolutionary_iterations : ℤ)

/-- The evolution `while` loop of `train`, fuel-indexed: while
`iteration < remaining`, one generation adds `evo` to the iteration counter.
`none` means the given fuel did not reach the exit; the loop terminates
with value `r` when some fuel yields `some r`. -/
def evolIter (remaining evo : ℤ) : ℕ → ℤ → Option ℤ
  | 0, it => if it < remaining then none else some it
  | n + 1, it => if it < remaining then evolIter remaining evo n (it + evo) else some it

/-- Final value of the iteration counter in `train`: after warmup the counter
is `warmup_iterations`, then the evolution loop runs.  (Training bursts and
evaluations do not touch the counter's exit condition.) -/
def trainResult (limit_env_steps steps_per_iteration num_envs
    warmup_iterations evolutionary_iterations : ℕ) (fuel : ℕ) : Option ℤ :=
  evolIter
    (remainingIters (maxIterations limit_env_steps steps_per_iteration num_envs)
      warmup_iterations evolutionary_iterations)
    (evolutionary_iterations : ℤ) fuel (warmup_iterations : ℤ)

/-! ## Population construction in `PGMORL.__init__` (pgmorl.py lines
345-371): `self.networks` is built with the `pop_size` constructor argument,
then `self.pop_size` is overwritten by `len(generate_weights(delta_weight))`
and the agents are built as `MOPPO(i, self.networks[i], weights[i], ...)`.
Networks are opaque and modelled by their index.  `none` models the
`IndexError` raised when `networks[i]` is accessed out of range. -/

/-- Traversal that fails as soon as one element fails (a Python loop raising
at the first bad index). -/
def optTraverse {A : Type} (f : ℕ → Option A) : List ℕ → Option (List A)
  | [] => some []
  | x :: xs =>
    match f x, optTraverse f xs with
    | some a, some l => some (a :: l)
    | _, _ => none

/-- The agent population built by `PGMORL.__init__` for a given
`delta_weight` and the `pop_size` constructor argument. -/
def pgmorlInitAgents (delta_weight : ℚ) (pop_size_arg : ℕ) :
    Option (List (MOAgentM (ℚ × ℚ) ℕ)) :=
  let networks := List.range pop_size_arg
  let weights := generate_weights delta_weight
  optTraverse
    (fun i => (networks.get? i).map
      (fun nid => (⟨i, 0, weights.getD i (0, 0), nid⟩ : MOAgentM (ℚ × ℚ) ℕ)))
    (List.range weights.length)

/-! ## Concrete instances used in the closed evaluation theorems below. -/

/-- Predictor history with three samples whose post-evaluations are pairwise
distinct: fewer than the four distinct post-evaluations that the
neighbor-expansion loop needs. -/
def histPredictor : PerformancePredictor (ℚ × ℚ) (ℚ × ℚ) :=
  ⟨[(1, 1), (1, 1), (1, 1)], [(2, 2), (3, 3), (4, 4)],
   [(1, 0), (0, 1), (1/2, 1/2)], 1/10, 3/100, 1, 500, 20⟩

/-- A `PerformanceBuffer` over `ref_point = (0, 0)` with 3 bins of capacity
2 whose third bin is full; the occupant at index 0 has centered norm
`1/2000` and the one at index 1 the strictly smaller norm `1/4000`. -/
noncomputable def pbW : PerformanceBuffer ℕ :=
  ⟨3, 2, (0, 0), [[], [], [11, 12]],
   [[], [], [(0, 1/2000), (0, 1/4000)]]⟩

/-- An archived individual for the selection instances. -/
def agA : MOAgentM ℕ ℕ :=
  ⟨7, 3, 0, 42⟩

/-- Selection context: one archived individual with evaluation 5, two
candidate weights, prediction adds the weight, hypervolume is the front
length and sparsity zero (scores in ℤ). -/
def ctxW : SelCtx ℕ ℕ ℕ ℤ :=
  ⟨[(agA, 5)], [1, 2], (fun w e => e + w), (fun l => (l.length : ℤ)), (fun _ => 0)⟩

/-- Two worker agents before a selection generation. -/
def ags0 : List (MOAgentM ℕ ℕ) :=
  [⟨0, 10, 9, 100⟩, ⟨1, 20, 8, 101⟩]

/-- Initial selection state for `ags0` with an empty speculative front. -/
def sW0 : SelSt ℕ ℕ ℕ :=
  ⟨ags0, [], []⟩

/-- Selection state after worker 0 has been processed. -/
def sW1 : SelSt ℕ ℕ ℕ :=
  ⟨[⟨0, 10, 1, 42⟩, ⟨1, 20, 8, 101⟩], [(5, 1)], [6]⟩

/-- Selection state after workers 0 and 1 have been processed. -/
def sW2 : SelSt ℕ ℕ ℕ :=
  ⟨[⟨0, 10, 1, 42⟩, ⟨1, 20, 2, 42⟩], [(5, 1), (5, 2)], [6, 7]⟩

/-- The population built with `delta_weight = 1`: two warmup weights. -/
def agW : List (MOAgentM (ℚ × ℚ) ℕ) :=
  [⟨0, 0, (0, 1), 0⟩, ⟨1, 0, (1, 0), 1⟩]

/-! ## Shared helper lemmas -/

/-- Length of the generated weight list, directly from the definition. -/
theorem generate_weights_length (d : ℚ) :
    (generate_weights d).length = (pyInt (1 / d)).toNat + 1 := by
  unfold generate_weights
  rw [List.length_map, List.length_range]

/-- A duplicate-free list contained in `L` is no longer than `L`. -/
theorem nodup_subset_length {α : Type} [DecidableEq α] {l L : List α}
    (h : l.Nodup) (hs : l ⊆ L) : l.length ≤ L.length :=
  calc l.length = l.toFinset.card := (List.toFinset_card_of_nodup h).symm
    _ ≤ L.toFinset.card := Finset.card_le_card (fun a ha => by
        rw [List.mem_toFinset] at ha ⊢
        exact hs ha)
    _ ≤ L.length := List.toFinset_card_le L

/-- Lengths after folding `add` calls over a predictor. -/
theorem applyRecords_lengths {E W : Type} (ops : List (W × E × E)) :
    ∀ p : PerformancePredictor E W,
      (applyRecords p ops).previous_performance.length
          = p.previous_performance.length + ops.length ∧
      (applyRecords p ops).next_performance.length
          = p.next_performance.length + ops.length ∧
      (applyRecords p ops).used_weight.length
          = p.used_weight.length + ops.length := by
  induction ops with
  | nil => intro p; simp [applyRecords]
  | cons o os ih =>
    intro p
    obtain ⟨ha, hb, hc⟩ := ih (p.add o.1 o.2.1 o.2.2)
    have hstep : applyRecords p (o :: os) = applyRecords (p.add o.1 o.2.1 o.2.2) os := by
      simp [applyRecords]
    rw [hstep, ha, hb, hc]
    have e1 : (p.add o.1 o.2.1 o.2.2).previous_performance
        = p.previous_performance ++ [o.2.1] := rfl
    have e2 : (p.add o.1 o.2.1 o.2.2).next_performance
        = p.next_performance ++ [o.2.2] := rfl
    have e3 : (p.add o.1 o.2.1 o.2.2).used_weight = p.used_weight ++ [o.1] := rfl
    rw [e1, e2, e3]
    simp only [List.length_append, List.length_singleton, List.length_cons,
      List.length_nil]
    omega

/-! ## Claim C9 -/

/-- C9: the predictor's three histories stay parallel.  `add` appends exactly
one entry to the end of each of `previous_performance`, `next_performance`
and `used_weight` (so all earlier entries are unchanged), changes no other
field and performs no validation; consequently after any sequence of `add`
calls from a fresh predictor the three histories have equal lengths. -/
theorem predictor_histories_parallel {E W : Type} (p : PerformancePredictor E W)
    (w : W) (a b : E) (thr sig amin amax fs : ℚ) (ops : List (W × E × E)) :
    ((p.add w a b).previous_performance = p.previous_performance ++ [a] ∧
     (p.add w a b).next_performance = p.next_performance ++ [b] ∧
     (p.add w a b).used_weight = p.used_weight ++ [w] ∧
     (p.add w a b).neighborhood_threshold = p.neighborhood_threshold ∧
     (p.add w a b).sigma = p.sigma ∧
     (p.add w a b).A_bound_min = p.A_bound_min ∧
     (p.add w a b).A_bound_max = p.A_bound_max ∧
     (p.add w a b).f_scale = p.f_scale) ∧
    ((applyRecords (PerformancePredictor.init E W thr sig amin amax fs) ops).previous_performance.length = ops.length ∧
     (applyRecords (PerformancePredictor.init E W thr sig amin amax fs) ops).next_performance.length = ops.length ∧
     (applyRecords (PerformancePredictor.init E W thr sig amin amax fs) ops).used_weight.length = ops.length) := by
  refine ⟨⟨rfl, rfl, rfl, rfl, rfl, rfl, rfl, rfl⟩, ?_⟩
  have h := applyRecords_lengths ops (PerformancePredictor.init E W thr sig amin amax fs)
  simpa [PerformancePredictor.init] using h

/-! ## Claim C3 -/

/-- C3 (amended): for `0 < d ≤ 1`, `generate_weights d` returns exactly
`int(1/d) + 1 = ⌊1/d⌋ + 1` weight vectors (truncation, not rounding), each
summing to 1, the first being `(0, 1)`, the last `(1, 0)`, with strictly
increasing first components. -/
theorem generate_weights_spec (d : ℚ) (h1 : 0 < d) (h2 : d ≤ 1) :
    (generate_weights d).length = (pyInt (1 / d)).toNat + 1 ∧
    (∀ w ∈ generate_weights d, w.1 + w.2 = 1) ∧
    (generate_weights d).head? = some (0, 1) ∧
    (generate_weights d).getLast? = some (1, 0) ∧
    (generate_weights d).Chain' (fun a b => a.1 < b.1) := by
  have hd1 : (1 : ℚ) ≤ 1 / d := by
    rw [le_div_iff₀ h1]
    linarith
  have hfl : (1 : ℤ) ≤ ⌊(1 : ℚ) / d⌋ := Int.le_floor.mpr (by exact_mod_cast hd1)
  have hpy : pyInt (1 / d) = ⌊(1 : ℚ) / d⌋ := by
    unfold pyInt
    rw [if_pos (by linarith)]
  have hn1 : 1 ≤ (pyInt (1 / d)).toNat := by
    rw [hpy]; omega
  set n : ℕ := (pyInt (1 / d)).toNat with hn
  have hnq : (0 : ℚ) < (n : ℚ) := by
    exact_mod_cast Nat.lt_of_lt_of_le Nat.zero_lt_one hn1
  refine ⟨generate_weights_length d, ?_, ?_, ?_, ?_⟩
  · intro w hw
    unfold generate_weights at hw
    rw [List.mem_map] at hw
    obtain ⟨j, _, rfl⟩ := hw
    ring
  · unfold generate_weights
    rw [List.head?_map, List.range_succ_eq_map, List.head?_cons]
    simp only [Option.map_some']
    norm_num
  · unfold generate_weights
    rw [List.getLast?_map, ← hn, List.range_succ, List.getLast?_concat]
    simp only [Option.map_some']
    rw [div_self (ne_of_gt hnq)]
    norm_num
  · unfold generate_weights
    rw [List.chain'_map, ← hn, List.chain'_range_succ]
    intro m hm
    simp only
    rw [div_lt_div_iff_of_pos_right hnq]
    exact_mod_cast Nat.lt_succ_self m

/-- C3 counterexample: at spacing `d = 3/5` the code returns
`int(5/3) + 1 = 2` vectors while the claimed count `round(5/3) + 1` is 3. -/
theorem generate_weights_round_counterexample :
    ((generate_weights (3/5)).length : ℤ) ≠ round ((1 : ℚ) / (3/5)) + 1 := by
  rw [generate_weights_length]
  have h1 : pyInt (1 / (3/5 : ℚ)) = 1 := by norm_num [pyInt]
  have h2 : round ((1 : ℚ) / (3/5)) = 2 := by norm_num [round_eq]
  rw [h1, h2]
  decide

/-- C3 witness: the amended theorem applied at `d = 1/2`. -/
theorem generate_weights_spec_witness :
    (0 : ℚ) < 1/2 ∧ (1/2 : ℚ) ≤ 1 ∧
    ((generate_weights (1/2)).length = (pyInt (1 / (1/2))).toNat + 1 ∧
     (∀ w ∈ generate_weights (1/2), w.1 + w.2 = 1) ∧
     (generate_weights (1/2)).head? = some (0, 1) ∧
     (generate_weights (1/2)).getLast? = some (1, 0) ∧
     (generate_weights (1/2)).Chain' (fun a b => a.1 < b.1)) :=
  ⟨by norm_num, by norm_num, generate_weights_spec (1/2) (by norm_num) (by norm_num)⟩

/-! ## Claim C4 -/

/-- Termination of the evolution loop: with a positive generation increment,
some fuel reaches the exit, and the exit value is the first counter value at
or past `remaining` (it never ran a generation past an already-satisfied
exit condition). -/
theorem evolIter_reaches_exit (remaining evo : ℤ) (hevo : 0 < evo) :
    ∀ (m : ℕ) (it : ℤ), (remaining - it).toNat ≤ m →
      ∃ (n : ℕ) (r : ℤ), evolIter remaining evo n it = some r ∧ remaining ≤ r ∧
        (r = it ∨ r - evo < remaining) := by
  intro m
  induction m with
  | zero =>
    intro it h
    have hx : ¬ it < remaining := by omega
    exact ⟨0, it, by simp [evolIter, hx], by omega, Or.inl rfl⟩
  | succ m ih =>
    intro it h
    by_cases hlt : it < remaining
    · have h2 : (remaining - (it + evo)).toNat ≤ m := by omega
      obtain ⟨n, r, hrun, hge, hor⟩ := ih (it + evo) h2
      refine ⟨n + 1, r, by simp [evolIter, hlt, hrun], hge, Or.inr ?_⟩
      rcases hor with h3 | h3
      · omega
      · exact h3
    · exact ⟨0, it, by simp [evolIter, hlt], by omega, Or.inl rfl⟩

/-- C4 (amended): for `evolutionary_iterations ≥ 1`, `train` terminates, and
it terminates exactly when the iteration counter first reaches at least
`remaining_iterations = max(max_iterations - warmup_iterations,
evolutionary_iterations)` — where `max_iterations = limit_env_steps //
steps_per_iteration // num_envs` — never on convergence: the exit value `r`
is at least `remaining_iterations`, and either the loop never ran
(`r = warmup_iterations`) or the previous counter value was still below
`remaining_iterations`. -/
theorem train_loop_terminates (limit steps envs warmup evo : ℕ) (hevo : 0 < evo) :
    ∃ (fuel : ℕ) (r : ℤ),
      trainResult limit steps envs warmup evo fuel = some r ∧
      remainingIters (maxIterations limit steps envs) warmup evo ≤ r ∧
      (r = (warmup : ℤ) ∨
        r - (evo : ℤ) < remainingIters (maxIterations limit steps envs) warmup evo) := by
  obtain ⟨n, r, h1, h2, h3⟩ :=
    evolIter_reaches_exit
      (remainingIters (maxIterations limit steps envs) warmup evo) (evo : ℤ)
      (by exact_mod_cast hevo)
      ((remainingIters (maxIterations limit steps envs) warmup evo - (warmup : ℤ)).toNat)
      (warmup : ℤ) le_rfl
  exact ⟨n, r, h1, h2, h3⟩

/-- C4 counterexample: with `limit_env_steps = 100`, `steps_per_iteration =
num_envs = 1` (step budget `max_iterations = 100`), `warmup_iterations = 80`
and `evolutionary_iterations = 20`, the evolution loop exits immediately —
the final counter is 80, not the claimed budget 100. -/
theorem train_loop_budget_counterexample :
    trainResult 100 1 1 80 20 0 = some 80 ∧
    (80 : ℤ) ≠ ((maxIterations 100 1 1 : ℕ) : ℤ) := by
  constructor
  · simp only [trainResult, evolIter, remainingIters, maxIterations]
    norm_num
  · simp only [maxIterations]
    decide

/-- C4 witness: the amended theorem applied at the counterexample's
configuration. -/
theorem train_loop_terminates_witness :
    0 < 20 ∧
    ∃ (fuel : ℕ) (r : ℤ),
      trainResult 100 1 1 80 20 fuel = some r ∧
      remainingIters (maxIterations 100 1 1) 80 20 ≤ r ∧
      (r = (80 : ℤ) ∨ r - (20 : ℤ) < remainingIters (maxIterations 100 1 1) 80 20) :=
  ⟨by decide, train_loop_terminates 100 1 1 80 20 (by decide)⟩

/-! ## Claim C10 -/

/-- A successful failable traversal preserves the index list's length. -/
theorem optTraverse_length {A : Type} (f : ℕ → Option A) :
    ∀ (l : List ℕ) (r : List A), optTraverse f l = some r → r.length = l.length := by
  intro l
  induction l with
  | nil =>
    intro r h
    simp [optTraverse] at h
    subst h
    rfl
  | cons x xs ih =>
    intro r h
    simp only [optTraverse] at h
    cases hfx : f x with
    | none => rw [hfx] at h; exact absurd h (by simp)
    | some a =>
      rw [hfx] at h
      cases hrec : optTraverse f xs with
      | none => rw [hrec] at h; exact absurd h (by simp)
      | some l2 =>
        rw [hrec] at h
        simp at h
        rw [← h]
        simp [List.length_cons, ih l2 hrec]

/-- C10: whenever `PGMORL.__init__` completes, the number of agents equals
the number of generated warmup weights, `int(1 / delta_weight) + 1`; the
`pop_size` constructor argument is overwritten by that count and two
successful constructions with different `pop_size` arguments produce the same
number of workers. -/
theorem init_population_size (delta : ℚ) (p p' : ℕ)
    (ag ag' : List (MOAgentM (ℚ × ℚ) ℕ))
    (h : pgmorlInitAgents delta p = some ag)
    (h' : pgmorlInitAgents delta p' = some ag') :
    ag.length = (pyInt (1 / delta)).toNat + 1 ∧
    ag.length = (generate_weights delta).length ∧
    ag'.length = ag.length := by
  have hl := optTraverse_length _ _ _ h
  have hl' := optTraverse_length _ _ _ h'
  rw [List.length_range] at hl hl'
  refine ⟨?_, ?_, ?_⟩
  · rw [hl, generate_weights_length]
  · exact hl
  · rw [hl, hl']

/-- Evaluation of the weight list at `delta_weight = 1`. -/
theorem generate_weights_one : generate_weights 1 = [(0, 1), (1, 0)] := by
  have hq : pyInt (1 / (1 : ℚ)) = 1 := by norm_num [pyInt]
  unfold generate_weights
  rw [hq, show List.range ((1 : ℤ).toNat + 1) = [0, 1] from rfl]
  simp only [List.map_cons, List.map_nil]
  norm_num

/-- Evaluation of the constructed population at `delta_weight = 1` with
`pop_size` argument 2. -/
theorem pgmorlInitAgents_one_two : pgmorlInitAgents 1 2 = some agW := by
  unfold pgmorlInitAgents
  rw [generate_weights_one]
  rfl

/-- Evaluation of the constructed population at `delta_weight = 1` with
`pop_size` argument 3: the extra network is simply unused. -/
theorem pgmorlInitAgents_one_three : pgmorlInitAgents 1 3 = some agW := by
  unfold pgmorlInitAgents
  rw [generate_weights_one]
  rfl

/-- C10 witness: the theorem applied at `delta_weight = 1` with `pop_size`
arguments 2 and 3. -/
theorem init_population_size_witness :
    pgmorlInitAgents 1 2 = some agW ∧ pgmorlInitAgents 1 3 = some agW ∧
    (agW.length = (pyInt (1 / 1)).toNat + 1 ∧
     agW.length = (generate_weights 1).length ∧
     agW.length = agW.length) :=
  ⟨pgmorlInitAgents_one_two, pgmorlInitAgents_one_three,
   init_population_size 1 2 3 agW agW pgmorlInitAgents_one_two pgmorlInitAgents_one_three⟩

/-! ## Claim C1 -/

/-- One neighbor-search step preserves: the `neighbor_weights` and
`neighbor_next_perf` lists have equal length, the collected post-evaluations
are pairwise distinct, and all of them occur in the history's
`next_performance`. -/
theorem neighborStep_inv (e : ℚ × ℚ) (thr : ℚ) (N : List (ℚ × ℚ))
    (acc : NeighborAcc) (s : (ℚ × ℚ) × (ℚ × ℚ) × (ℚ × ℚ))
    (hmem : s.2.1 ∈ N)
    (h1 : acc.1.length = acc.2.2.length) (h2 : acc.2.2.Nodup)
    (h3 : acc.2.2 ⊆ N) :
    (neighborStep e thr acc s).1.length = (neighborStep e thr acc s).2.2.length ∧
    (neighborStep e thr acc s).2.2.Nodup ∧
    (neighborStep e thr acc s).2.2 ⊆ N := by
  unfold neighborStep
  split
  · rename_i hcond
    refine ⟨by simp [h1], ?_, ?_⟩
    · rw [List.nodup_append]
      exact ⟨h2, List.nodup_singleton _, by
        intro y hy hy'
        rw [List.mem_singleton] at hy'
        exact hcond.2 (hy' ▸ hy)⟩
    · intro y hy
      rw [List.mem_append] at hy
      rcases hy with hy | hy
      · exact h3 hy
      · rw [List.mem_singleton] at hy
        exact hy ▸ hmem
  · exact ⟨h1, h2, h3⟩

/-- The invariant of `neighborStep_inv` is preserved by a whole scan of the
history. -/
theorem neighborFold_inv (e : ℚ × ℚ) (thr : ℚ) (N : List (ℚ × ℚ)) :
    ∀ (l : List ((ℚ × ℚ) × (ℚ × ℚ) × (ℚ × ℚ))) (acc : NeighborAcc),
      (∀ s ∈ l, s.2.1 ∈ N) →
      acc.1.length = acc.2.2.length → acc.2.2.Nodup → acc.2.2 ⊆ N →
      (l.foldl (neighborStep e thr) acc).1.length
          = (l.foldl (neighborStep e thr) acc).2.2.length ∧
      (l.foldl (neighborStep e thr) acc).2.2.Nodup ∧
      (l.foldl (neighborStep e thr) acc).2.2 ⊆ N := by
  intro l
  induction l with
  | nil => intro acc _ h1 h2 h3; exact ⟨h1, h2, h3⟩
  | cons s rest ih =>
    intro acc hmem h1 h2 h3
    rw [List.foldl_cons]
    obtain ⟨g1, g2, g3⟩ :=
      neighborStep_inv e thr N acc s (hmem s (List.mem_cons_self s rest))
        h1 h2 h3
    exact ih (neighborStep e thr acc s) (fun t ht => hmem t (List.mem_cons_of_mem s ht))
      g1 g2 g3

/-- Every element of the zipped history has its middle component in
`next_performance`. -/
theorem zip3_snd_mem (p : PerformancePredictor (ℚ × ℚ) (ℚ × ℚ)) :
    ∀ s ∈ p.previous_performance.zip (p.next_performance.zip p.used_weight),
      s.2.1 ∈ p.next_performance := by
  rintro ⟨a, b, c⟩ hs
  have h1 := List.of_mem_zip hs
  have h2 := List.of_mem_zip h1.2
  exact h2.1

/-- C1: on a history with fewer than four pairwise-distinct post-evaluations
— here the concrete three-sample history `histPredictor` queried at
`policy_eval = (1, 1)` — no number of neighborhood expansions ever collects
four neighbors, so the `while len(neighbor_weights) < 4` loop of
`predict_next_evaluation` never exits and no precondition error is raised:
the call loops forever instead of failing fast as the spec demands. -/
theorem predict_neighbor_loop_starves :
    ∀ k : ℕ, ((neighborsAfter histPredictor (1, 1) k).2.2).1.length < 4 := by
  have hN : histPredictor.next_performance.length = 3 := rfl
  have key : ∀ k : ℕ,
      ((neighborsAfter histPredictor (1, 1) k).2.2).1.length
          = ((neighborsAfter histPredictor (1, 1) k).2.2).2.2.length ∧
      ((neighborsAfter histPredictor (1, 1) k).2.2).2.2.Nodup ∧
      ((neighborsAfter histPredictor (1, 1) k).2.2).2.2 ⊆ histPredictor.next_performance := by
    intro k
    induction k with
    | zero =>
      exact ⟨rfl, List.nodup_nil, by intro y hy; exact absurd hy (List.not_mem_nil y)⟩
    | succ k ih =>
      obtain ⟨h1, h2, h3⟩ := ih
      exact neighborFold_inv (1, 1) _ histPredictor.next_performance _ _
        (zip3_snd_mem histPredictor) h1 h2 h3
  intro k
  obtain ⟨h1, h2, h3⟩ := key k
  have hle := nodup_subset_length h2 h3
  rw [hN] at hle
  omega

/-! ## PerformanceBuffer lemmas (claims C2, C6, C7) -/

/-- Reading back the element just written by `List.set`. -/
theorem getD_set_self {A : Type} (l : List A) (i : ℕ) (v d : A) (h : i < l.length) :
    (l.set i v).getD i d = v := by
  simp [List.getD_eq_getElem?_getD, List.getElem?_set_self, h]

/-- `List.set` leaves other positions unchanged. -/
theorem getD_set_ne {A : Type} (l : List A) (i j : ℕ) (v d : A) (h : i ≠ j) :
    (l.set i v).getD j d = l.getD j d := by
  simp [List.getD_eq_getElem?_getD, List.getElem?_set_ne h]

/-- Every position of a replicated list reads the replicated element. -/
theorem getD_replicate {A : Type} (n i : ℕ) (d : A) :
    (List.replicate n d).getD i d = d := by
  simp only [List.getD_eq_getElem?_getD, List.getElem?_replicate]
  split <;> rfl

/-- `add` with an out-of-range bin index returns the buffer unchanged. -/
theorem add_out_of_range {α : Type} (pb : PerformanceBuffer α) (c : α) (e : ℝ × ℝ)
    (h : bufferId pb.origin pb.num_bins e < 0 ∨
      (pb.num_bins : ℤ) ≤ bufferId pb.origin pb.num_bins e) :
    pb.add c e = pb := by
  simp only [PerformanceBuffer.add]
  rw [if_pos h]

/-- `add` with an in-range bin index and spare capacity appends to the two
parallel bins. -/
theorem add_append {α : Type} (pb : PerformanceBuffer α) (c : α) (e : ℝ × ℝ)
    (h : ¬ (bufferId pb.origin pb.num_bins e < 0 ∨
      (pb.num_bins : ℤ) ≤ bufferId pb.origin pb.num_bins e))
    (hcap : (pb.bins.getD (bufferId pb.origin pb.num_bins e).toNat []).length < pb.max_size) :
    pb.add c e =
      ⟨pb.num_bins, pb.max_size, pb.origin,
       pb.bins.set (bufferId pb.origin pb.num_bins e).toNat
         (pb.bins.getD (bufferId pb.origin pb.num_bins e).toNat [] ++ [c]),
       pb.bins_evals.set (bufferId pb.origin pb.num_bins e).toNat
         (pb.bins_evals.getD (bufferId pb.origin pb.num_bins e).toNat [] ++ [e])⟩ := by
  simp only [PerformanceBuffer.add]
  rw [if_neg h, if_pos hcap]

/-- `add` with an in-range bin index and a full bin runs the replacement
scan. -/
theorem add_full {α : Type} (pb : PerformanceBuffer α) (c : α) (e : ℝ × ℝ)
    (h : ¬ (bufferId pb.origin pb.num_bins e < 0 ∨
      (pb.num_bins : ℤ) ≤ bufferId pb.origin pb.num_bins e))
    (hcap : ¬ (pb.bins.getD (bufferId pb.origin pb.num_bins e).toNat []).length < pb.max_size) :
    pb.add c e =
      match replaceIndex pb.origin
          (pb.bins_evals.getD (bufferId pb.origin pb.num_bins e).toNat [])
          (pb.bins.getD (bufferId pb.origin pb.num_bins e).toNat []).length
          (rnorm (centerEval pb.origin e)) with
      | some j =>
        ⟨pb.num_bins, pb.max_size, pb.origin,
         pb.bins.set (bufferId pb.origin pb.num_bins e).toNat
           ((pb.bins.getD (bufferId pb.origin pb.num_bins e).toNat []).set j c),
         pb.bins_evals.set (bufferId pb.origin pb.num_bins e).toNat
           ((pb.bins_evals.getD (bufferId pb.origin pb.num_bins e).toNat []).set j e)⟩
      | none => pb := by
  simp only [PerformanceBuffer.add]
  rw [if_neg h, if_neg hcap]

/-! ## Claim C7 -/

/-- C7: an `add` whose computed bin index falls outside `[0, num_bins)`
returns normally (the embedding is a total function) and leaves every part
of the archive's state unchanged. -/
theorem performanceBuffer_out_of_range_noop {α : Type} (pb : PerformanceBuffer α)
    (c : α) (e : ℝ × ℝ)
    (h : bufferId pb.origin pb.num_bins e < 0 ∨
      (pb.num_bins : ℤ) ≤ bufferId pb.origin pb.num_bins e) :
    pb.add c e = pb :=
  add_out_of_range pb c e h

/-- Norm of a vertical two-component vector. -/
theorem rnorm_snd (y : ℝ) (hy : 0 ≤ y) : rnorm (0, y) = y := by
  unfold rnorm
  norm_num
  exact Real.sqrt_sq hy

/-- Centering over the origin `(0, 0)` is the identity on nonnegative
evaluations. -/
theorem centerEval_zero (e : ℝ × ℝ) (h1 : 0 ≤ e.1) (h2 : 0 ≤ e.2) :
    centerEval (0, 0) e = e := by
  unfold centerEval
  rw [add_zero, add_zero, max_eq_left h1, max_eq_left h2]

/-- The evaluation `(0, 0)` maps to bin index 3 in a 3-bin buffer over the
origin: `arccos 0 = pi / 2` lies on the upper boundary of the quarter turn,
one past the last bin. -/
theorem bufferId_boundary : bufferId (0, 0) 3 (0, 0) = 3 := by
  simp only [bufferId]
  rw [centerEval_zero (0, 0) le_rfl le_rfl]
  rw [show rnorm ((0 : ℝ), (0 : ℝ)) = 0 from rnorm_snd 0 le_rfl]
  norm_num [Real.arccos_zero]
  rw [show Real.pi / 2 / (Real.pi / 2 / 3) = 3 by
    have hpi := Real.pi_ne_zero
    field_simp
    ring]
  norm_num

/-- C7 witness: the out-of-range no-op at the concrete buffer `pbW` and the
boundary evaluation `(0, 0)`. -/
theorem performanceBuffer_out_of_range_noop_witness :
    (bufferId pbW.origin pbW.num_bins (0, 0) < 0 ∨
      (pbW.num_bins : ℤ) ≤ bufferId pbW.origin pbW.num_bins (0, 0)) ∧
    pbW.add 99 (0, 0) = pbW := by
  have h0 : pbW.origin = (0, 0) := rfl
  have h1 : pbW.num_bins = 3 := rfl
  have hb : bufferId pbW.origin pbW.num_bins (0, 0) = 3 := by
    rw [h0, h1, bufferId_boundary]
  have hout : bufferId pbW.origin pbW.num_bins (0, 0) < 0 ∨
      (pbW.num_bins : ℤ) ≤ bufferId pbW.origin pbW.num_bins (0, 0) := by
    right
    rw [hb, h1]
    norm_num
  exact ⟨hout, performanceBuffer_out_of_range_noop pbW 99 (0, 0) hout⟩

/-! ## Claim C6 -/

/-- Setting bin `i0` of both parallel lists to new contents of equal,
bounded length keeps the per-bin invariants. -/
theorem set_bins_inv {α : Type} (pb : PerformanceBuffer α) (i0 : ℕ)
    (X : List α) (Y : List (ℝ × ℝ))
    (hlen : pb.bins.length = pb.bins_evals.length)
    (hbins : ∀ i : ℕ, (pb.bins.getD i []).length = (pb.bins_evals.getD i []).length ∧
      (pb.bins.getD i []).length ≤ pb.max_size)
    (hXY : X.length = Y.length) (hX : X.length ≤ pb.max_size) :
    (pb.bins.set i0 X).length = (pb.bins_evals.set i0 Y).length ∧
    ∀ i : ℕ, ((pb.bins.set i0 X).getD i []).length
        = ((pb.bins_evals.set i0 Y).getD i []).length ∧
      ((pb.bins.set i0 X).getD i []).length ≤ pb.max_size := by
  refine ⟨by rw [List.length_set, List.length_set, hlen], ?_⟩
  intro i
  by_cases hi : i0 = i
  · subst hi
    by_cases hlt : i0 < pb.bins.length
    · rw [getD_set_self _ _ _ _ hlt, getD_set_self _ _ _ _ (hlen ▸ hlt)]
      exact ⟨hXY, hX⟩
    · rw [List.set_eq_of_length_le (le_of_not_lt hlt),
        List.set_eq_of_length_le (le_of_not_lt (hlen ▸ hlt))]
      exact hbins i0
  · rw [getD_set_ne _ _ _ _ _ hi, getD_set_ne _ _ _ _ _ hi]
    exact hbins i

/-- One `add` call preserves the buffer invariants: `max_size` and the outer
parallel structure are unchanged and every bin stays within `max_size`. -/
theorem add_preserves_inv {α : Type} (pb : PerformanceBuffer α) (c : α) (e : ℝ × ℝ)
    (hlen : pb.bins.length = pb.bins_evals.length)
    (hbins : ∀ i : ℕ, (pb.bins.getD i []).length = (pb.bins_evals.getD i []).length ∧
      (pb.bins.getD i []).length ≤ pb.max_size) :
    (pb.add c e).max_size = pb.max_size ∧
    (pb.add c e).bins.length = (pb.add c e).bins_evals.length ∧
    ∀ i : ℕ, ((pb.add c e).bins.getD i []).length
        = ((pb.add c e).bins_evals.getD i []).length ∧
      ((pb.add c e).bins.getD i []).length ≤ pb.max_size := by
  by_cases hg : bufferId pb.origin pb.num_bins e < 0 ∨
      (pb.num_bins : ℤ) ≤ bufferId pb.origin pb.num_bins e
  · rw [add_out_of_range pb c e hg]
    exact ⟨rfl, hlen, hbins⟩
  · by_cases hcap :
        (pb.bins.getD (bufferId pb.origin pb.num_bins e).toNat []).length < pb.max_size
    · rw [add_append pb c e hg hcap]
      obtain ⟨g1, g2⟩ := set_bins_inv pb (bufferId pb.origin pb.num_bins e).toNat
        (pb.bins.getD (bufferId pb.origin pb.num_bins e).toNat [] ++ [c])
        (pb.bins_evals.getD (bufferId pb.origin pb.num_bins e).toNat [] ++ [e])
        hlen hbins
        (by
          rw [List.length_append, List.length_append,
            (hbins (bufferId pb.origin pb.num_bins e).toNat).1]
          rfl)
        (by
          rw [List.length_append]
          simpa using hcap)
      exact ⟨rfl, g1, g2⟩
    · rw [add_full pb c e hg hcap]
      cases hrep : replaceIndex pb.origin
          (pb.bins_evals.getD (bufferId pb.origin pb.num_bins e).toNat [])
          (pb.bins.getD (bufferId pb.origin pb.num_bins e).toNat []).length
          (rnorm (centerEval pb.origin e)) with
      | none => exact ⟨rfl, hlen, hbins⟩
      | some j =>
        obtain ⟨g1, g2⟩ := set_bins_inv pb (bufferId pb.origin pb.num_bins e).toNat
          ((pb.bins.getD (bufferId pb.origin pb.num_bins e).toNat []).set j c)
          ((pb.bins_evals.getD (bufferId pb.origin pb.num_bins e).toNat []).set j e)
          hlen hbins
          (by rw [List.length_set, List.length_set,
            (hbins (bufferId pb.origin pb.num_bins e).toNat).1])
          (by rw [List.length_set]
              exact (hbins (bufferId pb.origin pb.num_bins e).toNat).2)
        exact ⟨rfl, g1, g2⟩

/-- The buffer invariants hold after folding any sequence of `add` calls. -/
theorem applyAdds_inv {α : Type} (ops : List (α × (ℝ × ℝ))) :
    ∀ pb : PerformanceBuffer α,
      pb.bins.length = pb.bins_evals.length →
      (∀ i : ℕ, (pb.bins.getD i []).length = (pb.bins_evals.getD i []).length ∧
        (pb.bins.getD i []).length ≤ pb.max_size) →
      (applyAdds pb ops).max_size = pb.max_size ∧
      (applyAdds pb ops).bins.length = (applyAdds pb ops).bins_evals.length ∧
      ∀ i : ℕ, ((applyAdds pb ops).bins.getD i []).length
          = ((applyAdds pb ops).bins_evals.getD i []).length ∧
        ((applyAdds pb ops).bins.getD i []).length ≤ pb.max_size := by
  induction ops with
  | nil => intro pb h1 h2; exact ⟨rfl, h1, h2⟩
  | cons o os ih =>
    intro pb h1 h2
    obtain ⟨a1, a2, a3⟩ := add_preserves_inv pb o.1 o.2 h1 h2
    have hstep : applyAdds pb (o :: os) = applyAdds (pb.add o.1 o.2) os := by
      simp [applyAdds]
    obtain ⟨b1, b2, b3⟩ := ih (pb.add o.1 o.2) a2 (by rw [a1]; exact a3)
    rw [hstep]
    exact ⟨by rw [b1, a1], b2, by rw [← a1]; exact b3⟩

/-- C6: for every buffer built with `num_bins` bins of capacity `max_size`
and every sequence of `add` calls, every bin of `bins` and of `bins_evals`
holds at most `max_size` entries afterward. -/
theorem performanceBuffer_bins_bounded {α : Type} (num_bins max_size : ℕ)
    (ref_point : ℝ × ℝ) (ops : List (α × (ℝ × ℝ))) (i : ℕ) :
    ((applyAdds (PerformanceBuffer.init α num_bins max_size ref_point) ops).bins.getD i []).length
        ≤ max_size ∧
    ((applyAdds (PerformanceBuffer.init α num_bins max_size ref_point) ops).bins_evals.getD i []).length
        ≤ max_size := by
  have h1 : (PerformanceBuffer.init α num_bins max_size ref_point).bins.length
      = (PerformanceBuffer.init α num_bins max_size ref_point).bins_evals.length := by
    simp [PerformanceBuffer.init]
  have h2 : ∀ j : ℕ,
      ((PerformanceBuffer.init α num_bins max_size ref_point).bins.getD j []).length
        = ((PerformanceBuffer.init α num_bins max_size ref_point).bins_evals.getD j []).length ∧
      ((PerformanceBuffer.init α num_bins max_size ref_point).bins.getD j []).length
        ≤ (PerformanceBuffer.init α num_bins max_size ref_point).max_size := by
    intro j
    simp only [PerformanceBuffer.init]
    rw [getD_replicate, getD_replicate]
    simp
  obtain ⟨b1, b2, b3⟩ := applyAdds_inv ops
    (PerformanceBuffer.init α num_bins max_size ref_point) h1 h2
  obtain ⟨c1, c2⟩ := b3 i
  exact ⟨c2, by rw [← c1]; exact c2⟩

/-! ## Claim C2 -/

/-- A successful `firstSat` scan returns the first satisfying index. -/
theorem firstSat_some_prop (p : ℕ → Bool) :
    ∀ (f k j : ℕ), firstSat p f k = some j →
      k ≤ j ∧ j < k + f ∧ p j = true ∧ ∀ m, k ≤ m → m < j → p m = false := by
  intro f
  induction f with
  | zero => intro k j h; exact absurd h (by simp [firstSat])
  | succ f ih =>
    intro k j h
    simp only [firstSat] at h
    by_cases hp : p k
    · rw [if_pos (by simp [hp])] at h
      obtain rfl : k = j := by simpa using h
      exact ⟨le_rfl, by omega, hp, fun m h1 h2 => absurd (lt_of_le_of_lt h1 h2) (lt_irrefl k)⟩
    · rw [if_neg (by simp [hp])] at h
      obtain ⟨h1, h2, h3, h4⟩ := ih (k + 1) j h
      refine ⟨by omega, by omega, h3, ?_⟩
      intro m hm1 hm2
      by_cases hmk : m = k
      · subst hmk
        simpa using hp
      · exact h4 m (by omega) hm2

/-- A failed `firstSat` scan means no index in range satisfies. -/
theorem firstSat_none_prop (p : ℕ → Bool) :
    ∀ (f k : ℕ), firstSat p f k = none → ∀ m, k ≤ m → m < k + f → p m = false := by
  intro f
  induction f with
  | zero => intro k _ m h1 h2; omega
  | succ f ih =>
    intro k h m h1 h2
    simp only [firstSat] at h
    by_cases hp : p k
    · rw [if_pos (by simp [hp])] at h
      exact absurd h (by simp)
    · rw [if_neg (by simp [hp])] at h
      by_cases hmk : m = k
      · subst hmk
        simpa using hp
      · exact ih (k + 1) h m (by omega) (by omega)

/-- C2 (amended): on an `add` whose target bin is full, the occupant
replaced is the first occupant (lowest index, insertion order) whose
centered-evaluation norm is smaller than the candidate's — not necessarily
the occupant of smallest norm; a replacement occurs exactly when at least
one occupant's centered norm is smaller than the candidate's (equivalently,
when the smallest such norm is smaller); when no occupant's norm is smaller,
the whole archive is left unchanged. -/
theorem performanceBuffer_add_full_first_weaker {α : Type}
    (pb : PerformanceBuffer α) (c : α) (e : ℝ × ℝ)
    (hg : ¬ (bufferId pb.origin pb.num_bins e < 0 ∨
      (pb.num_bins : ℤ) ≤ bufferId pb.origin pb.num_bins e))
    (hfull : ¬ (pb.bins.getD (bufferId pb.origin pb.num_bins e).toNat []).length
      < pb.max_size) :
    (∀ j : ℕ,
      replaceIndex pb.origin
          (pb.bins_evals.getD (bufferId pb.origin pb.num_bins e).toNat [])
          (pb.bins.getD (bufferId pb.origin pb.num_bins e).toNat []).length
          (rnorm (centerEval pb.origin e)) = some j →
        (pb.add c e).bins = pb.bins.set (bufferId pb.origin pb.num_bins e).toNat
          ((pb.bins.getD (bufferId pb.origin pb.num_bins e).toNat []).set j c) ∧
        (pb.add c e).bins_evals = pb.bins_evals.set (bufferId pb.origin pb.num_bins e).toNat
          ((pb.bins_evals.getD (bufferId pb.origin pb.num_bins e).toNat []).set j e) ∧
        j < (pb.bins.getD (bufferId pb.origin pb.num_bins e).toNat []).length ∧
        rnorm (centerEval pb.origin
            ((pb.bins_evals.getD (bufferId pb.origin pb.num_bins e).toNat []).getD j (0, 0)))
          < rnorm (centerEval pb.origin e) ∧
        (∀ m : ℕ, m < j →
          ¬ rnorm (centerEval pb.origin
              ((pb.bins_evals.getD (bufferId pb.origin pb.num_bins e).toNat []).getD m (0, 0)))
            < rnorm (centerEval pb.origin e))) ∧
    (replaceIndex pb.origin
        (pb.bins_evals.getD (bufferId pb.origin pb.num_bins e).toNat [])
        (pb.bins.getD (bufferId pb.origin pb.num_bins e).toNat []).length
        (rnorm (centerEval pb.origin e)) = none → pb.add c e = pb) ∧
    ((replaceIndex pb.origin
        (pb.bins_evals.getD (bufferId pb.origin pb.num_bins e).toNat [])
        (pb.bins.getD (bufferId pb.origin pb.num_bins e).toNat []).length
        (rnorm (centerEval pb.origin e))).isSome ↔
      ∃ m : ℕ, m < (pb.bins.getD (bufferId pb.origin pb.num_bins e).toNat []).length ∧
        rnorm (centerEval pb.origin
            ((pb.bins_evals.getD (bufferId pb.origin pb.num_bins e).toNat []).getD m (0, 0)))
          < rnorm (centerEval pb.origin e)) := by
  refine ⟨?_, ?_, ?_⟩
  · intro j hrep
    have hadd := add_full pb c e hg hfull
    rw [hrep] at hadd
    obtain ⟨h1, h2, h3, h4⟩ := firstSat_some_prop _ _ _ _ hrep
    refine ⟨by rw [hadd], by rw [hadd], by omega, ?_, ?_⟩
    · exact of_decide_eq_true h3
    · intro m hm
      have := h4 m (Nat.zero_le m) hm
      simpa using this
  · intro hrep
    have hadd := add_full pb c e hg hfull
    rw [hrep] at hadd
    exact hadd
  · constructor
    · intro hs
      obtain ⟨j, hj⟩ := Option.isSome_iff_exists.mp hs
      obtain ⟨h1, h2, h3, _⟩ := firstSat_some_prop _ _ _ _ hj
      exact ⟨j, by omega, of_decide_eq_true h3⟩
    · intro ⟨m, hm1, hm2⟩
      by_contra hns
      have hnone : replaceIndex pb.origin
          (pb.bins_evals.getD (bufferId pb.origin pb.num_bins e).toNat [])
          (pb.bins.getD (bufferId pb.origin pb.num_bins e).toNat []).length
          (rnorm (centerEval pb.origin e)) = none := by
        cases hcase : replaceIndex pb.origin
            (pb.bins_evals.getD (bufferId pb.origin pb.num_bins e).toNat [])
            (pb.bins.getD (bufferId pb.origin pb.num_bins e).toNat []).length
            (rnorm (centerEval pb.origin e)) with
        | none => rfl
        | some j => exact absurd (by rw [hcase]; rfl) hns
      have := firstSat_none_prop _ _ _ hnone m (Nat.zero_le m) (by omega)
      rw [decide_eq_false_iff_not] at this
      exact this hm2

/-- The evaluation `(0, 1/1000)` maps to bin index 2 in a 3-bin buffer over
the origin: the clipped cosine is exactly `1/2`, so the angle is `pi / 3` and
`floor((pi/3) / (pi/6)) = 2`. -/
theorem bufferId_third_bin : bufferId (0, 0) 3 (0, 1/1000) = 2 := by
  simp only [bufferId]
  rw [centerEval_zero (0, 1/1000) (by norm_num) (by norm_num)]
  rw [show rnorm ((0 : ℝ), 1/1000) = 1/1000 from rnorm_snd _ (by norm_num)]
  norm_num
  rw [show (1/2 : ℝ) = Real.cos (Real.pi / 3) from Real.cos_pi_div_three.symm]
  rw [Real.arccos_cos (by positivity) (by linarith [Real.pi_pos])]
  rw [show Real.pi / 3 / (Real.pi / 2 / 3) = 2 by
    have hpi := Real.pi_ne_zero
    field_simp
    ring]
  norm_num

/-- The concrete bin index stated over `pbW`'s own fields. -/
theorem pbW_bufferId : bufferId pbW.origin pbW.num_bins (0, 1/1000) = 2 :=
  bufferId_third_bin

/-- Candidate norm at the concrete instance. -/
theorem pbW_cand_norm : rnorm (centerEval pbW.origin (0, 1/1000)) = 1/1000 := by
  have h0 : pbW.origin = (0, 0) := rfl
  rw [h0, centerEval_zero (0, 1/1000) (by norm_num) (by norm_num)]
  exact rnorm_snd _ (by norm_num)

/-- The concrete bin index is in range. -/
theorem pbW_in_range :
    ¬ (bufferId pbW.origin pbW.num_bins (0, 1/1000) < 0 ∨
      (pbW.num_bins : ℤ) ≤ bufferId pbW.origin pbW.num_bins (0, 1/1000)) := by
  have hb : bufferId pbW.origin pbW.num_bins (0, 1/1000) = 2 := bufferId_third_bin
  rw [hb]
  decide

/-- The target bin of the concrete instance is full. -/
theorem pbW_full :
    ¬ (pbW.bins.getD (bufferId pbW.origin pbW.num_bins (0, 1/1000)).toNat []).length
      < pbW.max_size := by
  have hb : bufferId pbW.origin pbW.num_bins (0, 1/1000) = 2 := bufferId_third_bin
  rw [hb]
  decide

/-- The replacement scan at the concrete instance stops at index 0: the
occupant with norm `1/2000` is the first one smaller than the candidate's
`1/1000`. -/
theorem pbW_replaceIndex :
    replaceIndex pbW.origin
      (pbW.bins_evals.getD (bufferId pbW.origin pbW.num_bins (0, 1/1000)).toNat [])
      (pbW.bins.getD (bufferId pbW.origin pbW.num_bins (0, 1/1000)).toNat []).length
      (rnorm (centerEval pbW.origin (0, 1/1000))) = some 0 := by
  have hb : bufferId pbW.origin pbW.num_bins (0, 1/1000) = 2 := bufferId_third_bin
  rw [hb, pbW_cand_norm]
  have hev : pbW.bins_evals.getD (2 : ℤ).toNat [] = [(0, 1/2000), (0, 1/4000)] := rfl
  have hbl : (pbW.bins.getD (2 : ℤ).toNat []).length = 2 := rfl
  rw [hev, hbl]
  have hp0 : rnorm (centerEval pbW.origin
      (([((0 : ℝ), (1/2000 : ℝ)), (0, 1/4000)].getD 0 (0, 0)))) < 1/1000 := by
    have h0 : pbW.origin = (0, 0) := rfl
    have hel : ([((0 : ℝ), (1/2000 : ℝ)), (0, 1/4000)].getD 0 (0, 0)) = (0, 1/2000) := rfl
    rw [h0, hel, centerEval_zero (0, 1/2000) (by norm_num) (by norm_num),
      rnorm_snd _ (by norm_num)]
    norm_num
  simp only [replaceIndex, firstSat]
  rw [if_pos (by simpa using decide_eq_true hp0)]

/-- The result of the concrete full-bin `add`: the first occupant is
replaced in both parallel bins. -/
theorem pbW_add_result :
    (pbW.add 99 (0, 1/1000)).bins = [[], [], [99, 12]] ∧
    (pbW.add 99 (0, 1/1000)).bins_evals = [[], [], [(0, 1/1000), (0, 1/4000)]] := by
  have hadd := add_full pbW 99 (0, 1/1000) pbW_in_range pbW_full
  rw [pbW_replaceIndex] at hadd
  rw [hadd]
  constructor
  · rw [pbW_bufferId]
    rfl
  · rw [pbW_bufferId]
    rfl

/-- C2 counterexample: in the concrete full bin `[(0, 1/2000), (0, 1/4000)]`
with candidate norm `1/1000`, the code replaces the occupant at index 0
(norm `1/2000`), yet the occupant at index 1 has the strictly smaller norm
`1/4000` and survives — so the occupant replaced is not the one with the
smallest centered-evaluation norm, refuting the claim as stated. -/
theorem performanceBuffer_min_norm_counterexample :
    (pbW.add 99 (0, 1/1000)).bins_evals = [[], [], [(0, 1/1000), (0, 1/4000)]] ∧
    rnorm (centerEval pbW.origin (0, 1/4000)) < rnorm (centerEval pbW.origin (0, 1/2000)) := by
  refine ⟨pbW_add_result.2, ?_⟩
  have h0 : pbW.origin = (0, 0) := rfl
  rw [h0, centerEval_zero (0, 1/4000) (by norm_num) (by norm_num),
    centerEval_zero (0, 1/2000) (by norm_num) (by norm_num),
    rnorm_snd _ (by norm_num), rnorm_snd _ (by norm_num)]
  norm_num

/-- C2 witness: the amended theorem applied at the concrete instance `pbW`
with candidate evaluation `(0, 1/1000)`, with its hypotheses discharged and
the resulting parallel bins evaluated. -/
theorem performanceBuffer_add_full_first_weaker_witness :
    (¬ (bufferId pbW.origin pbW.num_bins (0, 1/1000) < 0 ∨
      (pbW.num_bins : ℤ) ≤ bufferId pbW.origin pbW.num_bins (0, 1/1000))) ∧
    (¬ (pbW.bins.getD (bufferId pbW.origin pbW.num_bins (0, 1/1000)).toNat []).length
      < pbW.max_size) ∧
    (pbW.add 99 (0, 1/1000)).bins = [[], [], [99, 12]] ∧
    (pbW.add 99 (0, 1/1000)).bins_evals = [[], [], [(0, 1/1000), (0, 1/4000)]] := by
  obtain ⟨part1, _, _⟩ :=
    performanceBuffer_add_full_first_weaker pbW 99 (0, 1/1000) pbW_in_range pbW_full
  obtain ⟨hbins, hevals, _, _, _⟩ := part1 0 pbW_replaceIndex
  refine ⟨pbW_in_range, pbW_full, ?_, ?_⟩
  · rw [hbins, pbW_bufferId]
    rfl
  · rw [hevals, pbW_bufferId]
    rfl

/-! ## Claims C5 and C8 -/

/-- Every pair produced by the `candidate_tuples` comprehension has the
candidate's evaluation as first component and was not yet selected. -/
theorem candTuples_mem {E W : Type} [DecidableEq E] [DecidableEq W]
    (selected : List (E × W)) (ev : E) (cw : List W) :
    ∀ x ∈ candTuples selected ev cw, x.1 = ev ∧ x ∉ selected := by
  intro x hx
  unfold candTuples at hx
  rw [List.mem_map] at hx
  obtain ⟨w, hw, rfl⟩ := hx
  rw [List.mem_filter] at hw
  refine ⟨rfl, ?_⟩
  have h2 := hw.2
  rwa [decide_eq_true_eq] at h2

/-- `List.getD` stays inside the list when the default is an element. -/
theorem getD_mem_of_default_mem {A : Type} (l : List A) (n : ℕ) (d : A)
    (hd : d ∈ l) : l.getD n d ∈ l := by
  by_cases h : n < l.length
  · rw [List.getD_eq_getElem?_getD, List.getElem?_eq_getElem h]
    exact List.getElem_mem h
  · rw [List.getD_eq_getElem?_getD, List.getElem?_eq_none (le_of_not_lt h)]
    exact hd

/-- The best record produced by the population scan names a member of the
scanned population together with a not-yet-selected (evaluation, weight)
pair — unless it is the incoming accumulator unchanged. -/
theorem scanPop_best {E W P K : Type} [DecidableEq E] [DecidableEq W]
    [LinearOrderedCommRing K] (ctx : SelCtx E W P K) (front : List E)
    (selected : List (E × W)) :
    ∀ (l : List (MOAgentM W P × E)) (best ob : Option (BestSel E W P K)),
      scanPop ctx front selected l best = some ob →
      ∀ b : BestSel E W P K, ob = some b →
        ((b.cand, b.eval) ∈ l ∧ (b.eval, b.weight) ∉ selected) ∨ best = some b := by
  intro l
  induction l with
  | nil =>
    intro best ob h b hb
    simp only [scanPop, Option.some.injEq] at h
    right
    rw [h, hb]
  | cons ce rest ih =>
    intro best ob h b hb
    cases hct : candTuples selected ce.2 ctx.cweights with
    | nil =>
      simp only [scanPop, hct] at h
      exact absurd h (by simp)
    | cons t ts =>
      simp only [scanPop, hct] at h
      rcases ih _ _ h b hb with ⟨hmem, hsel⟩ | hbest
      · exact Or.inl ⟨List.mem_cons_of_mem _ hmem, hsel⟩
      · have hchosen : (t :: ts).getD
            (npArgmax ((((t :: ts).map (fun q => ctx.predict q.2 q.1)).map
              (fun pe => ctx.hv (front ++ [pe]) - ctx.sp (front ++ [pe])))) 0).1 t
            ∈ candTuples selected ce.2 ctx.cweights := by
          rw [hct]
          exact getD_mem_of_default_mem _ _ _ (List.mem_cons_self t ts)
        obtain ⟨hq1, hq2⟩ := candTuples_mem selected ce.2 ctx.cweights _ hchosen
        cases best with
        | none =>
          dsimp only at hbest
          simp only [Option.some.injEq] at hbest
          left
          rw [← hbest]
          constructor
          · show (ce.1, ce.2) ∈ ce :: rest
            rw [Prod.mk.eta]
            exact List.mem_cons_self ce rest
          · show (ce.2, _) ∉ selected
            rw [← hq1, Prod.mk.eta]
            exact hq2
        | some b0 =>
          dsimp only at hbest
          by_cases hcmp : b0.improv <
              (npArgmax ((((t :: ts).map (fun q => ctx.predict q.2 q.1)).map
                (fun pe => ctx.hv (front ++ [pe]) - ctx.sp (front ++ [pe])))) 0).2
          · rw [if_pos hcmp] at hbest
            simp only [Option.some.injEq] at hbest
            left
            rw [← hbest]
            constructor
            · show (ce.1, ce.2) ∈ ce :: rest
              rw [Prod.mk.eta]
              exact List.mem_cons_self ce rest
            · show (ce.2, _) ∉ selected
              rw [← hq1, Prod.mk.eta]
              exact hq2
          · rw [if_neg hcmp] at hbest
            exact Or.inr hbest

/-- Characterization of one successful worker step: a winning record `b`
exists whose candidate/evaluation pair comes from the population, whose task
pair was not selected before and is appended to `selected_tasks`, whose
predicted evaluation is appended to the speculative front, and whose copy —
with identity `i`, the slot's previous `global_step`, and the winning
weight — is installed at slot `i`. -/
theorem stepWorker_spec {E W P K : Type} [DecidableEq E] [DecidableEq W]
    [LinearOrderedCommRing K] (ctx : SelCtx E W P K) (i : ℕ) (s s' : SelSt E W P)
    (h : stepWorker ctx i s = some s') :
    ∃ b : BestSel E W P K,
      (b.cand, b.eval) ∈ ctx.pop ∧ (b.eval, b.weight) ∉ s.selected ∧
      s'.selected = s.selected ++ [(b.eval, b.weight)] ∧
      s'.front = s.front ++ [b.predicted] ∧
      s'.agents = s.agents.set i
        ⟨i, (s.agents.getD i b.cand).global_step, b.weight, b.cand.net⟩ := by
  unfold stepWorker at h
  cases hscan : scanPop ctx s.front s.selected ctx.pop none with
  | none =>
    rw [hscan] at h
    exact absurd h (by simp)
  | some ob =>
    rw [hscan] at h
    cases ob with
    | none => exact absurd h (by simp)
    | some b =>
      simp only [Option.some.injEq] at h
      rcases scanPop_best ctx s.front s.selected ctx.pop none (some b) hscan b rfl with
        ⟨h1, h2⟩ | habs
      · exact ⟨b, h1, h2, by rw [← h], by rw [← h], by rw [← h]⟩
      · exact absurd habs (by simp)

/-- C5: if the selection generation completes its first `k` worker slots,
the recorded (prior-evaluation, weight) pairs are pairwise distinct, one per
worker, and the speculative front passed to the next worker has grown by
exactly one entry per processed worker: worker `i+1` (1-indexed) is scored
against a front of length `initial_front_length + i`. -/
theorem task_selection_distinct_and_front_growth {E W P K : Type}
    [DecidableEq E] [DecidableEq W] [LinearOrderedCommRing K]
    (ctx : SelCtx E W P K) (agents : List (MOAgentM W P)) (front0 : List E)
    (k : ℕ) (s : SelSt E W P)
    (h : selGo ctx ⟨agents, [], front0⟩ k = some s) :
    s.selected.Nodup ∧ s.selected.length = k ∧ s.front.length = front0.length + k := by
  induction k generalizing s with
  | zero =>
    simp only [selGo, Option.some.injEq] at h
    rw [← h]
    exact ⟨List.nodup_nil, rfl, rfl⟩
  | succ k ih =>
    simp only [selGo] at h
    rw [Option.bind_eq_some] at h
    obtain ⟨s1, hs1, hstep⟩ := h
    obtain ⟨hnd, hlen, hfront⟩ := ih s1 hs1
    obtain ⟨b, _, hnsel, hsel, hfr, _⟩ := stepWorker_spec ctx k s1 s hstep
    refine ⟨?_, ?_, ?_⟩
    · rw [hsel, List.nodup_append]
      exact ⟨hnd, List.nodup_singleton _, by
        intro y hy hy'
        rw [List.mem_singleton] at hy'
        exact hnsel (hy' ▸ hy)⟩
    · rw [hsel, List.length_append, hlen]
      rfl
    · rw [hfr, List.length_append, hfront]
      rfl

/-- C8: a successful worker step installs at slot `i` an agent distinct from
the archived winner yet carrying its policy payload (an independent copy in
the value-semantics embedding), with identity `i`, the slot's previous
occupant's `global_step`, and the winning candidate weight — the same weight
recorded in `selected_tasks` for this worker. -/
theorem task_selection_installs_copy {E W P K : Type} [DecidableEq E]
    [DecidableEq W] [LinearOrderedCommRing K] (ctx : SelCtx E W P K) (i : ℕ)
    (s s' : SelSt E W P) (h : stepWorker ctx i s = some s')
    (hi : i < s.agents.length) :
    ∃ b : BestSel E W P K,
      (b.cand, b.eval) ∈ ctx.pop ∧
      s'.selected = s.selected ++ [(b.eval, b.weight)] ∧
      s'.front = s.front ++ [b.predicted] ∧
      ∀ d : MOAgentM W P, s'.agents.getD i d =
        ⟨i, (s.agents.getD i d).global_step, b.weight, b.cand.net⟩ := by
  obtain ⟨b, h1, _, h3, h4, h5⟩ := stepWorker_spec ctx i s s' h
  refine ⟨b, h1, h3, h4, ?_⟩
  intro d
  rw [h5, getD_set_self _ _ _ _ hi]
  have hsame : s.agents.getD i b.cand = s.agents.getD i d := by
    rw [List.getD_eq_getElem?_getD, List.getD_eq_getElem?_getD,
      List.getElem?_eq_getElem hi]
    rfl
  rw [hsame]

/-- C5 witness: the theorem applied to the concrete two-worker generation
`ctxW`, whose run is evaluated: selected tasks `[(5,1), (5,2)]` are distinct
and the front grows to length 2. -/
theorem task_selection_distinct_and_front_growth_witness :
    selGo ctxW ⟨ags0, [], []⟩ 2 = some sW2 ∧
    (sW2.selected.Nodup ∧ sW2.selected.length = 2 ∧
      sW2.front.length = ([] : List ℕ).length + 2) := by
  have h : selGo ctxW ⟨ags0, [], []⟩ 2 = some sW2 := by decide
  exact ⟨h, task_selection_distinct_and_front_growth ctxW ags0 [] 2 sW2 h⟩

/-- C8 witness: the theorem applied to the concrete worker step from `sW0`
to `sW1` at slot 0. -/
theorem task_selection_installs_copy_witness :
    stepWorker ctxW 0 sW0 = some sW1 ∧ 0 < sW0.agents.length ∧
    ∃ b : BestSel ℕ ℕ ℕ ℤ,
      (b.cand, b.eval) ∈ ctxW.pop ∧
      sW1.selected = sW0.selected ++ [(b.eval, b.weight)] ∧
      sW1.front = sW0.front ++ [b.predicted] ∧
      ∀ d : MOAgentM ℕ ℕ, sW1.agents.getD 0 d =
        ⟨0, (sW0.agents.getD 0 d).global_step, b.weight, b.cand.net⟩ := by
  have h : stepWorker ctxW 0 sW0 = some sW1 := by decide
  exact ⟨h, by decide, task_selection_installs_copy ctxW 0 sW0 sW1 h (by decide)⟩
